import Mathlib

/-!
Verification of the scene-segmentation core of `script_loader.py`
(`ScriptLoader`): text normalization (`clean_text`), heading patterns,
scene segmentation (`segment_into_scenes`) and scene building
(`_create_scene`, `_extract_location`, `_extract_metadata`,
`_determine_scene_type`).

Strings are modelled as `List Char`.  The Python regular-expression
operations used by the source are embedded as executable functions whose
semantics follow Python's `re` module (leftmost match, greedy
quantifiers with backtracking) on the concrete patterns appearing in the
source.  Character classes (`\s`, `\d`, the letter class `[а-яёa-z]`
under `re.IGNORECASE`, `str.upper`, `str.isupper`) are modelled on the
ASCII and Cyrillic ranges that the source inspects.
-/

/-- Python `\s` / `str.strip` whitespace, on the ASCII range. -/
def isPySpace (c : Char) : Bool :=
  c = ' ' || c = '\t' || c = '\n' || c = '\r' || c = '\x0b' || c = '\x0c'

/-- Python `\d` on the ASCII range: a decimal digit. -/
def isDigitChar (c : Char) : Bool :=
  decide ('0' ≤ c) && decide (c ≤ '9')

/-- The character class `[а-яёa-z]` with `re.IGNORECASE`: a Latin or
Cyrillic letter, either case (used by `clean_text` line filtering). -/
def isAlphaRuEn (c : Char) : Bool :=
  (decide ('a' ≤ c) && decide (c ≤ 'z')) ||
  (decide ('A' ≤ c) && decide (c ≤ 'Z')) ||
  (decide ('а' ≤ c) && decide (c ≤ 'я')) ||
  (decide ('А' ≤ c) && decide (c ≤ 'Я')) ||
  c = 'ё' || c = 'Ё'

/-- A lower-case cased character (Latin or Cyrillic). -/
def isLowerChar (c : Char) : Bool :=
  (decide ('a' ≤ c) && decide (c ≤ 'z')) ||
  (decide ('а' ≤ c) && decide (c ≤ 'я')) || c = 'ё'

/-- An upper-case cased character (Latin or Cyrillic). -/
def isUpperChar (c : Char) : Bool :=
  (decide ('A' ≤ c) && decide (c ≤ 'Z')) ||
  (decide ('А' ≤ c) && decide (c ≤ 'Я')) || c = 'Ё'

/-- Python `str.upper`, character-wise, on the Latin and Cyrillic
letters the source inspects. -/
def pyUpperChar (c : Char) : Char :=
  if decide ('a' ≤ c) && decide (c ≤ 'z') then Char.ofNat (c.toNat - 32)
  else if decide ('а' ≤ c) && decide (c ≤ 'я') then Char.ofNat (c.toNat - 32)
  else if c = 'ё' then 'Ё'
  else c

/-- Python `str.upper` over a whole string. -/
def pyUpper (l : List Char) : List Char := l.map pyUpperChar

/-- Python `str.strip()`: drop whitespace from both ends. -/
def pyStrip (l : List Char) : List Char :=
  ((l.dropWhile isPySpace).reverse.dropWhile isPySpace).reverse

/-- Python `str.isupper()`: at least one cased character and no
lower-case cased character. -/
def pyIsUpper (l : List Char) : Bool :=
  l.any (fun c => isUpperChar c || isLowerChar c) && l.all (fun c => !isLowerChar c)

/-- Python `s.split('\n')`. -/
def splitNl : List Char → List (List Char)
  | [] => [[]]
  | c :: cs =>
    match splitNl cs with
    | [] => [[]]
    | h :: t => if c = '\n' then [] :: h :: t else (c :: h) :: t

/-- Python `'\n'.join(ls)`. -/
def joinNl : List (List Char) → List Char
  | [] => []
  | [l] => l
  | l :: ls => l ++ '\n' :: joinNl ls

/-- Word counter for Python `len(line.split())`: the number of maximal
non-whitespace runs.  The Boolean argument records whether the scan is
currently inside a word. -/
def countWordsAux : Bool → List Char → Nat
  | _, [] => 0
  | inWord, c :: cs =>
    if isPySpace c then countWordsAux false cs
    else (if inWord then 0 else 1) + countWordsAux true cs

/-- Python `len(line.split())`. -/
def wordCount (l : List Char) : Nat := countWordsAux false l

/-- Greedy `\s*\n` matcher used by the substitution
`re.sub(r'\n\s*\n', '\n\n', text)`: given the text after an initial
`'\n'`, return the remainder after the longest `\s*` run that is
followed by a final `'\n'` (trying longer runs first, as Python's
greedy `\s*` with backtracking does), or `none` if no such run exists. -/
def nlRunAux : List Char → Option (List Char)
  | [] => none
  | c :: cs =>
    if isPySpace c then
      match nlRunAux cs with
      | some r => some r
      | none => if c = '\n' then some cs else none
    else none

/-- Fuelled scan implementing `re.sub(r'\n\s*\n', '\n\n', text)`:
at each position, if the text starts with `'\n'` and a greedy `\s*\n`
continuation exists, the whole match is replaced by two newlines and the
scan resumes after it; otherwise the character is kept.  One unit of
fuel is spent per step and every step consumes at least one character,
so `length` fuel always suffices. -/
def subNlF : Nat → List Char → List Char
  | _, [] => []
  | 0, l => l
  | f + 1, c :: cs =>
    if c = '\n' then
      match nlRunAux cs with
      | some r => '\n' :: '\n' :: subNlF f r
      | none => c :: subNlF f cs
    else c :: subNlF f cs

/-- `re.sub(r'\n\s*\n', '\n\n', text)` from `clean_text`. -/
def subNl (l : List Char) : List Char := subNlF l.length l

/-- `re.sub(r' +', ' ', text)` from `clean_text`: replacing every
maximal run of spaces by a single space is the same as dropping every
space that is immediately followed by another space. -/
def subSp : List Char → List Char
  | [] => []
  | [c] => [c]
  | c :: d :: cs =>
    if c = ' ' && d = ' ' then subSp (d :: cs) else c :: subSp (d :: cs)

/-- The page-number test of `clean_text`:
`re.match(r'^\d+$', line) and len(line) < 5`. -/
def isPageNum (l : List Char) : Bool :=
  !l.isEmpty && l.all isDigitChar && decide (l.length < 5)

/-- The stray-artifact test of `clean_text`:
`len(line) < 3 and not re.search(r'[а-яёa-z]', line, re.IGNORECASE)`. -/
def isShortNoAlpha (l : List Char) : Bool :=
  decide (l.length < 3) && !l.any isAlphaRuEn

/-- A line survives the line-filtering loop of `clean_text`. -/
def keepLine (l : List Char) : Bool :=
  !isPageNum l && !isShortNoAlpha l

/-- The surviving, stripped lines produced by `ScriptLoader.clean_text`:
the two regex substitutions, a whole-text strip, a split into lines,
a per-line strip and the two drop rules. -/
def cleanLines (t : List Char) : List (List Char) :=
  ((splitNl (pyStrip (subSp (subNl t)))).map pyStrip).filter keepLine

/-- `ScriptLoader.clean_text`: the surviving lines rejoined with single
newlines. -/
def clean_text (t : List Char) : List Char := joinNl (cleanLines t)

/-- Does the string start with the given literal (regex-literal match at
the current position)?  First argument: the literal. -/
def pyStarts : List Char → List Char → Bool
  | [], _ => true
  | _ :: _, [] => false
  | p :: ps, c :: cs => p = c && pyStarts ps cs

/-- Does the string contain the given literal as a substring
(Python `in`)?  Second argument: the literal. -/
def hasSub : List Char → List Char → Bool
  | l, sub =>
    pyStarts sub l ||
      match l with
      | [] => false
      | _ :: t => hasSub t sub

/-- `re.match` of `r'^\s*(?:INT\.|EXT\.|INT\/EXT\.|FADE IN:|FADE OUT:)'`
with `re.IGNORECASE`: after leading whitespace the line starts with one
of the five slug markers.  The alternatives all start with a
non-whitespace character, so the greedy `\s*` consumes exactly the
maximal whitespace run. -/
def pat1 (l : List Char) : Bool :=
  let r := pyUpper (l.dropWhile isPySpace)
  pyStarts "INT.".data r || pyStarts "EXT.".data r ||
  pyStarts "INT/EXT.".data r || pyStarts "FADE IN:".data r ||
  pyStarts "FADE OUT:".data r

/-- `re.match` of `r'^\s*\d+\.\s*'`: after leading whitespace, one or
more digits followed by a period (the trailing `\s*` always matches;
shortening the greedy `\d+` cannot help since the next character would
then be a digit, not `'.'`). -/
def pat2 (l : List Char) : Bool :=
  let r := l.dropWhile isPySpace
  let ds := r.takeWhile isDigitChar
  !ds.isEmpty && (r.drop ds.length).head? = some '.'

/-- `re.match` of `r'^\s*(?:SCENE\s+\d+|CUT TO:)'` with `re.IGNORECASE`:
after leading whitespace, either `SCENE`, at least one whitespace
character and a digit, or the literal `CUT TO:` (shortening the greedy
`\s+` cannot help since a whitespace character is not a digit). -/
def pat3 (l : List Char) : Bool :=
  let r := l.dropWhile isPySpace
  let afterScene := r.drop 5
  let afterWs := afterScene.dropWhile isPySpace
  (pyStarts "SCENE".data (pyUpper r) &&
    !((afterScene.takeWhile isPySpace).isEmpty) &&
    (match afterWs.head? with
     | some d => isDigitChar d
     | none => false)) ||
  pyStarts "CUT TO:".data (pyUpper r)

/-- `re.match` of `r'^\s*(?:EST\.|MEDIUM|CLOSE|ANGLE)'` with
`re.IGNORECASE`. -/
def pat4 (l : List Char) : Bool :=
  let r := pyUpper (l.dropWhile isPySpace)
  pyStarts "EST.".data r || pyStarts "MEDIUM".data r ||
  pyStarts "CLOSE".data r || pyStarts "ANGLE".data r

/-- The default `scene_patterns` of `ScriptLoader.__init__`, as line
matchers, in source order. -/
def defaultPatterns : List (List Char → Bool) := [pat1, pat2, pat3, pat4]

/-- `ScriptLoader.__init__`: `self.scene_patterns = scene_patterns or
[...]`.  Python's `or` falls back to the default list when the argument
is `None` or falsy — and an empty list is falsy. -/
def initPatterns (ps : Option (List (List Char → Bool))) :
    List (List Char → Bool) :=
  match ps with
  | none => defaultPatterns
  | some l => if l.isEmpty then defaultPatterns else l

/-- The per-line boundary test of `segment_into_scenes`: some compiled
pattern matches the line. -/
def isBoundary (pats : List (List Char → Bool)) (l : List Char) : Bool :=
  pats.any (fun p => p l)

/-- A scene record (dataclass `Scene`). -/
structure Scene where
  number : Nat
  title : List Char
  location : List Char
  content : List Char
  raw_text : List Char
  metadata_line_count : Nat
  metadata_word_count : Nat
  metadata_has_dialogue : Bool
  metadata_scene_type : List Char
  deriving DecidableEq, Repr

/-- One alternative `alt` of the location regex
`(INT\.|EXT\.|INT\/EXT\.)\s*([^-]+)` tried at the current position of
`re.search`, returning capture group 2 on success.  After the literal,
the greedy `\s*` consumes the maximal whitespace run; if the next
character exists and is not `'-'`, group 2 is the run of non-`'-'`
characters from there.  Otherwise `[^-]+` cannot start there and the
greedy `\s*` backtracks by one character: group 2 becomes that single
whitespace character (which is not `'-'`, and the following character,
if any, is `'-'`).  If the whitespace run is empty too, the alternative
fails at this position. -/
def tryLocAlt (alt : List Char) (s : List Char) : Option (List Char) :=
  if pyStarts alt (pyUpper s) then
    let rest := s.drop alt.length
    let ws := rest.takeWhile isPySpace
    let w := rest.drop ws.length
    match w with
    | c :: _ =>
      if c = '-' then ws.getLast?.map (fun c' => [c'])
      else some (w.takeWhile (fun a => a ≠ '-'))
    | [] => ws.getLast?.map (fun c' => [c'])
  else none

/-- `re.search(r'(INT\.|EXT\.|INT\/EXT\.)\s*([^-]+)', title,
re.IGNORECASE)`: try the three alternatives, in regex order, at each
position from the left; return capture group 2 of the first success. -/
def locSearch : List Char → Option (List Char)
  | [] => none
  | c :: t =>
    match (tryLocAlt "INT.".data (c :: t)).orElse
        (fun _ => (tryLocAlt "EXT.".data (c :: t)).orElse
          (fun _ => tryLocAlt "INT/EXT.".data (c :: t))) with
    | some g => some g
    | none => locSearch t

/-- `ScriptLoader._extract_location`: the stripped capture group if the
location regex matches, otherwise the title truncated to 50 characters
with a `...` marker. -/
def extract_location (title : List Char) : List Char :=
  match locSearch title with
  | some g => pyStrip g
  | none =>
    if decide (title.length > 50) then title.take 50 ++ "...".data else title

/-- `ScriptLoader._determine_scene_type`: upper-case the first line and
test substring membership of `INT.`, `EXT.`, `INT/EXT.` in that order.
The returned labels are the source's Russian strings for interior,
exterior, combined and undetermined. -/
def determine_scene_type (lines : List (List Char)) : List Char :=
  let title := match lines with
    | [] => []
    | t :: _ => pyUpper t
  if hasSub title "INT.".data then "интерьер".data
  else if hasSub title "EXT.".data then "экстерьер".data
  else if hasSub title "INT/EXT.".data then "интерьер/экстерьер".data
  else "неопределен".data

/-- `ScriptLoader._create_scene` (with `_extract_metadata` inlined into
the four metadata fields). -/
def create_scene (lines : List (List Char)) (number : Nat) : Scene where
  number := number
  title := match lines with
    | [] => []
    | t :: _ => t
  location := extract_location (match lines with
    | [] => []
    | t :: _ => t)
  content := if decide (lines.length > 1) then joinNl lines.tail else []
  raw_text := joinNl lines
  metadata_line_count := lines.length
  metadata_word_count := (lines.map wordCount).sum
  metadata_has_dialogue :=
    lines.any (fun l => pyIsUpper l && decide (l.length < 50))
  metadata_scene_type := determine_scene_type lines

/-- The accumulation loop of `segment_into_scenes`, scene buffers only:
strip each line, skip empty lines, start a new buffer at a boundary
line when the current buffer is non-empty, and flush the final
non-empty buffer. -/
def segBuffers (isB : List Char → Bool) :
    List (List Char) → List (List Char) → List (List (List Char))
  | curr, [] => if curr.isEmpty then [] else [curr]
  | curr, l :: ls =>
    let l' := pyStrip l
    if l'.isEmpty then segBuffers isB curr ls
    else if isB l' && !curr.isEmpty then curr :: segBuffers isB [l'] ls
    else segBuffers isB (curr ++ [l']) ls

/-- The accumulation loop of `segment_into_scenes`, building `Scene`
records with the running `scene_number` counter `n`. -/
def segLoop (isB : List Char → Bool) :
    List (List Char) → Nat → List (List Char) → List Scene
  | curr, n, [] => if curr.isEmpty then [] else [create_scene curr n]
  | curr, n, l :: ls =>
    let l' := pyStrip l
    if l'.isEmpty then segLoop isB curr n ls
    else if isB l' && !curr.isEmpty then
      create_scene curr n :: segLoop isB [l'] (n + 1) ls
    else segLoop isB (curr ++ [l']) n ls

/-- `ScriptLoader.segment_into_scenes` for a given pattern
configuration. -/
def segment_into_scenes (pats : List (List Char → Bool)) (t : List Char) :
    List Scene :=
  segLoop (isBoundary pats) [] 1 (splitNl t)

/-- The pair relation under which `re.sub(r' +', ' ', ·)` leaves a
string unchanged: no two adjacent spaces. -/
def noSpSp (a b : Char) : Prop := ¬(a = ' ' ∧ b = ' ')

/-- The pair relation under which `re.sub(r'\n\s*\n', '\n\n', ·)` leaves
a string unchanged: no newline directly followed by whitespace. -/
def nlOk (a b : Char) : Prop := a = '\n' → isPySpace b = false

/-- The invariant satisfied by every line that `clean_text` outputs:
stripped, non-empty, newline-free, surviving the drop rules, and with
no two adjacent spaces. -/
def goodLine (s : List Char) : Prop :=
  pyStrip s = s ∧ s ≠ [] ∧ '\n' ∉ s ∧ keepLine s = true ∧
    List.Chain' noSpSp s

/-- The stripped, non-empty lines that the segmentation loop actually
consumes. -/
def survivors (ls : List (List Char)) : List (List Char) :=
  (ls.map pyStrip).filter (fun l => !l.isEmpty)

/-! ### Lemmas about `splitNl` and `joinNl` -/

/-! ### Lemmas about `splitNl` and `joinNl` -/

theorem splitNl_ne_nil (l : List Char) : splitNl l ≠ [] := by
  cases l with
  | nil => simp [splitNl]
  | cons c cs =>
    simp only [splitNl]
    rcases splitNl cs with _ | ⟨h, t⟩
    · simp
    · dsimp only
      split <;> simp

theorem splitNl_cons (c : Char) (cs : List Char) {h : List Char}
    {t : List (List Char)} (hr : splitNl cs = h :: t) :
    splitNl (c :: cs) =
      if c = '\n' then [] :: h :: t else (c :: h) :: t := by
  simp only [splitNl, hr]

theorem splitNl_mem_no_nl {l s : List Char} (hs : s ∈ splitNl l) :
    '\n' ∉ s := by
  induction l generalizing s with
  | nil =>
    simp only [splitNl, List.mem_singleton] at hs
    simp [hs]
  | cons c cs ih =>
    rcases hr : splitNl cs with _ | ⟨h, t⟩
    · exact absurd hr (splitNl_ne_nil cs)
    · rw [splitNl_cons c cs hr] at hs
      by_cases hc : c = '\n'
      · rw [if_pos hc] at hs
        rcases List.mem_cons.mp hs with hs' | hs'
        · simp [hs']
        · exact ih (hr ▸ hs')
      · rw [if_neg hc] at hs
        rcases List.mem_cons.mp hs with hs' | hs'
        · subst hs'
          intro hmem
          rcases List.mem_cons.mp hmem with h1 | h1
          · exact hc h1.symm
          · exact ih (hr ▸ List.mem_cons_self h t) h1
        · exact ih (hr ▸ List.mem_cons_of_mem h hs')

theorem joinNl_splitNl (l : List Char) : joinNl (splitNl l) = l := by
  induction l with
  | nil => simp [splitNl, joinNl]
  | cons c cs ih =>
    rcases hr : splitNl cs with _ | ⟨h, t⟩
    · exact absurd hr (splitNl_ne_nil cs)
    · rw [hr] at ih
      rw [splitNl_cons c cs hr]
      by_cases hc : c = '\n'
      · rw [if_pos hc, hc]
        simpa [joinNl] using ih
      · rw [if_neg hc]
        cases t with
        | nil => simpa [joinNl] using ih
        | cons t0 ts => simpa [joinNl] using ih

theorem splitNl_of_no_nl {l : List Char} (h : '\n' ∉ l) : splitNl l = [l] := by
  induction l with
  | nil => simp [splitNl]
  | cons c cs ih =>
    simp only [List.mem_cons, not_or] at h
    have hcs : splitNl cs = [cs] := ih h.2
    rw [splitNl_cons c cs hcs, if_neg (fun hc => h.1 hc.symm)]

theorem splitNl_append_no_nl {l : List Char} (hl : '\n' ∉ l)
    {r h : List Char} {t : List (List Char)} (hr : splitNl r = h :: t) :
    splitNl (l ++ r) = (l ++ h) :: t := by
  induction l with
  | nil => simpa using hr
  | cons c cs ih =>
    simp only [List.mem_cons, not_or] at hl
    have hrec := ih hl.2
    rw [List.cons_append, splitNl_cons c (cs ++ r) hrec,
      if_neg (fun hc => hl.1 hc.symm)]
    simp

theorem splitNl_joinNl {ls : List (List Char)} (hne : ls ≠ [])
    (h : ∀ s ∈ ls, '\n' ∉ s) : splitNl (joinNl ls) = ls := by
  induction ls with
  | nil => exact absurd rfl hne
  | cons l ls ih =>
    cases ls with
    | nil => exact splitNl_of_no_nl (h l (List.mem_cons_self l []))
    | cons m ms =>
      have hrec : splitNl (joinNl (m :: ms)) = m :: ms :=
        ih (by simp) (fun s hs => h s (List.mem_cons_of_mem l hs))
      have hstep : splitNl ('\n' :: joinNl (m :: ms)) = [] :: m :: ms := by
        rw [splitNl_cons '\n' _ hrec, if_pos rfl]
      have := splitNl_append_no_nl (h l (List.mem_cons_self l (m :: ms))) hstep
      simpa [joinNl] using this

theorem splitNl_head_pfx :
    ∀ (l h : List Char) (t : List (List Char)), splitNl l = h :: t → h <+: l := by
  intro l
  induction l with
  | nil =>
    intro h t hs
    simp only [splitNl, List.cons.injEq] at hs
    simp [← hs.1]
  | cons c cs ih =>
    intro h t hs
    rcases hr : splitNl cs with _ | ⟨h', t'⟩
    · exact absurd hr (splitNl_ne_nil cs)
    · rw [splitNl_cons c cs hr] at hs
      by_cases hc : c = '\n'
      · rw [if_pos hc] at hs
        rw [← (List.cons.injEq _ _ _ _).mp hs |>.1]
        simp
      · rw [if_neg hc] at hs
        have h1 := (List.cons.injEq _ _ _ _).mp hs
        have := ih h' t' hr
        rw [← h1.1]
        rcases this with ⟨tt, htt⟩
        exact ⟨tt, by simp [htt]⟩

theorem splitNl_mem_sub {l s : List Char} (hs : s ∈ splitNl l) : s <:+: l := by
  induction l generalizing s with
  | nil =>
    simp only [splitNl, List.mem_singleton] at hs
    simp [hs]
  | cons c cs ih =>
    rcases hr : splitNl cs with _ | ⟨h', t'⟩
    · exact absurd hr (splitNl_ne_nil cs)
    · rw [splitNl_cons c cs hr] at hs
      by_cases hc : c = '\n'
      · rw [if_pos hc] at hs
        rcases List.mem_cons.mp hs with hs' | hs'
        · simp [hs']
        · exact (ih (hr ▸ hs')).trans
            (List.infix_cons_iff.mpr (Or.inr (List.infix_refl cs)))
      · rw [if_neg hc] at hs
        rcases List.mem_cons.mp hs with hs' | hs'
        · subst hs'
          exact List.IsPrefix.isInfix (by
            have := splitNl_head_pfx cs h' t' hr
            rcases this with ⟨tt, htt⟩
            exact ⟨tt, by simp [htt]⟩)
        · exact (ih (hr ▸ List.mem_cons_of_mem h' hs')).trans
            (List.infix_cons_iff.mpr (Or.inr (List.infix_refl cs)))

/-! ### Lemmas about `pyStrip` -/

theorem dropWhile_head_not {p : Char → Bool} :
    ∀ {l : List Char} {c : Char}, (l.dropWhile p).head? = some c → p c = false := by
  intro l
  induction l with
  | nil => intro c h; simp at h
  | cons a as ih =>
    intro c h
    rw [List.dropWhile_cons] at h
    by_cases hp : p a = true
    · exact ih (by rwa [if_pos hp] at h)
    · rw [if_neg hp] at h
      simp only [List.head?_cons, Option.some.injEq] at h
      subst h
      exact Bool.not_eq_true _ |>.mp hp

theorem dropWhile_eq_self {p : Char → Bool} {l : List Char}
    (h : ∀ c, l.head? = some c → p c = false) : l.dropWhile p = l := by
  cases l with
  | nil => rfl
  | cons a as =>
    rw [List.dropWhile_cons, if_neg]
    simp [h a rfl]

theorem pyStrip_last_not_ws {l : List Char} {c : Char}
    (h : (pyStrip l).getLast? = some c) : isPySpace c = false := by
  unfold pyStrip at h
  rw [List.getLast?_reverse] at h
  exact dropWhile_head_not h

theorem pyStrip_head_not_ws {l : List Char} {c : Char}
    (h : (pyStrip l).head? = some c) : isPySpace c = false := by
  unfold pyStrip at h
  rw [List.head?_reverse] at h
  set m := l.dropWhile isPySpace with hm
  set r := m.reverse.dropWhile isPySpace with hr
  -- `r` is a suffix of `m.reverse`, so its last element is the last
  -- element of `m.reverse`, i.e. the head of `m`, which fails `isPySpace`.
  rcases List.dropWhile_suffix (l := m.reverse) isPySpace with ⟨s, hs⟩
  have hrne : r ≠ [] := by
    intro hnil
    rw [hnil] at h
    simp at h
  have : (s ++ r).getLast? = r.getLast? := List.getLast?_append_of_ne_nil s hrne
  rw [hs] at this
  rw [h, List.getLast?_reverse] at this
  rw [hm] at this
  exact dropWhile_head_not this

theorem pyStrip_eq_self {l : List Char}
    (h1 : ∀ c, l.head? = some c → isPySpace c = false)
    (h2 : ∀ c, l.getLast? = some c → isPySpace c = false) : pyStrip l = l := by
  unfold pyStrip
  rw [dropWhile_eq_self h1, dropWhile_eq_self (by
    intro c hc
    rw [List.head?_reverse] at hc
    exact h2 c hc)]
  exact List.reverse_reverse l

theorem pyStrip_idem (l : List Char) : pyStrip (pyStrip l) = pyStrip l :=
  pyStrip_eq_self (fun _ h => pyStrip_head_not_ws h)
    (fun _ h => pyStrip_last_not_ws h)

theorem pyStrip_sub (l : List Char) : pyStrip l <:+: l := by
  unfold pyStrip
  set m := l.dropWhile isPySpace with hm
  have h1 : (m.reverse.dropWhile isPySpace).reverse <+: m := by
    rw [← List.reverse_reverse m]
    exact List.reverse_prefix.mpr (by
      rw [List.reverse_reverse]
      exact List.dropWhile_suffix isPySpace)
  exact (List.IsPrefix.isInfix h1).trans
    (List.IsSuffix.isInfix (List.dropWhile_suffix isPySpace))

/-! ### Fixed points of the two substitutions -/

theorem subSp_head : ∀ (c : Char) (cs : List Char),
    (subSp (c :: cs)).head? = some c := by
  intro c cs
  induction cs generalizing c with
  | nil => rfl
  | cons d ds ih =>
    show (subSp (c :: d :: ds)).head? = some c
    rw [subSp]
    by_cases h : (c = ' ' && d = ' ') = true
    · rw [if_pos h]
      have hc : c = ' ' := by
        rcases Bool.and_eq_true_iff.mp h with ⟨h1, _⟩
        exact decide_eq_true_eq.mp h1
      have hd : d = ' ' := by
        rcases Bool.and_eq_true_iff.mp h with ⟨_, h2⟩
        exact decide_eq_true_eq.mp h2
      rw [hc, ← hd]
      exact ih d
    · rw [if_neg h]
      rfl

theorem subSp_chain : ∀ l : List Char, List.Chain' noSpSp (subSp l) := by
  intro l
  induction l with
  | nil => simp [subSp]
  | cons c cs ih =>
    cases cs with
    | nil => simp [subSp]
    | cons d ds =>
      rw [subSp]
      by_cases h : (c = ' ' && d = ' ') = true
      · rw [if_pos h]; exact ih
      · rw [if_neg h]
        rw [List.chain'_cons']
        refine ⟨?_, ih⟩
        intro y hy
        rw [subSp_head d ds] at hy
        have hd : d = y := by simpa using hy
        subst hd
        intro hcd
        exact h (by simp [hcd.1, hcd.2])

theorem subSp_eq_self : ∀ {l : List Char}, List.Chain' noSpSp l → subSp l = l := by
  intro l
  induction l with
  | nil => intro _; rfl
  | cons c cs ih =>
    intro h
    cases cs with
    | nil => rfl
    | cons d ds =>
      rw [subSp, if_neg, ih (List.Chain'.tail h)]
      have := List.chain'_cons'.mp h
      have hcd : noSpSp c d := this.1 d rfl
      simp only [Bool.and_eq_true, decide_eq_true_eq]
      intro hh
      exact hcd ⟨hh.1, hh.2⟩

theorem nlRunAux_eq_none {l : List Char}
    (h : ∀ c, l.head? = some c → isPySpace c = false) : nlRunAux l = none := by
  cases l with
  | nil => rfl
  | cons c cs =>
    rw [nlRunAux, if_neg]
    simp [h c rfl]

theorem subNlF_eq_self : ∀ (f : Nat) {l : List Char},
    List.Chain' nlOk l → subNlF f l = l := by
  intro f l
  induction l generalizing f with
  | nil => intro _; cases f <;> rfl
  | cons c cs ih =>
    intro h
    cases f with
    | zero => cases cs <;> rfl
    | succ f =>
      rw [subNlF]
      by_cases hc : c = '\n'
      · rw [if_pos hc]
        have hnone : nlRunAux cs = none := by
          apply nlRunAux_eq_none
          intro d hd
          have := (List.chain'_cons'.mp h).1 d hd
          exact this (by rw [hc])
        rw [hnone, ih f (List.Chain'.tail h), hc]
      · rw [if_neg hc, ih f (List.Chain'.tail h)]

theorem subNl_eq_self {l : List Char} (h : List.Chain' nlOk l) : subNl l = l :=
  subNlF_eq_self l.length h

/-! ### Structure of `joinNl` and the shape of normalized lines -/

theorem joinNl_cons_cons (l m : List Char) (ms : List (List Char)) :
    joinNl (l :: m :: ms) = l ++ '\n' :: joinNl (m :: ms) := rfl

theorem joinNl_ne_nil {ls : List (List Char)} (hne : ls ≠ [])
    (h : ∀ s ∈ ls, s ≠ []) : joinNl ls ≠ [] := by
  cases ls with
  | nil => exact absurd rfl hne
  | cons l ls =>
    cases ls with
    | nil => exact h l (List.mem_cons_self l [])
    | cons m ms =>
      rw [joinNl_cons_cons]
      simp

theorem joinNl_head {l : List Char} (ls : List (List Char)) (hl : l ≠ []) :
    (joinNl (l :: ls)).head? = l.head? := by
  cases ls with
  | nil => rfl
  | cons m ms =>
    rw [joinNl_cons_cons]
    exact List.head?_append_of_ne_nil l hl

theorem joinNl_last_not_ws {ls : List (List Char)}
    (h : ∀ s ∈ ls, s ≠ [] ∧ ∀ c, s.getLast? = some c → isPySpace c = false) :
    ∀ c, (joinNl ls).getLast? = some c → isPySpace c = false := by
  induction ls with
  | nil => intro c hc; simp [joinNl] at hc
  | cons l ls ih =>
    intro c hc
    cases ls with
    | nil => exact (h l (List.mem_cons_self l [])).2 c hc
    | cons m ms =>
      rw [joinNl_cons_cons] at hc
      have hJ : joinNl (m :: ms) ≠ [] :=
        joinNl_ne_nil (by simp) (fun s hs => (h s (List.mem_cons_of_mem l hs)).1)
      have h2 : ('\n' :: joinNl (m :: ms) : List Char) ≠ [] := by simp
      rw [List.getLast?_append_of_ne_nil l h2] at hc
      have : ('\n' :: joinNl (m :: ms) : List Char) = ['\n'] ++ joinNl (m :: ms) := rfl
      rw [this, List.getLast?_append_of_ne_nil _ hJ] at hc
      exact ih (fun s hs => h s (List.mem_cons_of_mem l hs)) c hc

theorem chain_nlOk_of_no_nl {l : List Char} (h : '\n' ∉ l) :
    List.Chain' nlOk l := by
  induction l with
  | nil => simp
  | cons c cs ih =>
    simp only [List.mem_cons, not_or] at h
    rw [List.chain'_cons']
    exact ⟨fun y _ hy => absurd hy.symm h.1, ih h.2⟩

theorem chain_nlOk_joinNl {ls : List (List Char)}
    (h : ∀ s ∈ ls, s ≠ [] ∧ '\n' ∉ s ∧
      ∀ c, s.head? = some c → isPySpace c = false) :
    List.Chain' nlOk (joinNl ls) := by
  induction ls with
  | nil => simp [joinNl]
  | cons l ls ih =>
    cases ls with
    | nil => exact chain_nlOk_of_no_nl (h l (List.mem_cons_self l [])).2.1
    | cons m ms =>
      rw [joinNl_cons_cons]
      rw [List.chain'_append]
      refine ⟨chain_nlOk_of_no_nl (h l (List.mem_cons_self l _)).2.1, ?_, ?_⟩
      · rw [List.chain'_cons']
        refine ⟨?_, ih (fun s hs => h s (List.mem_cons_of_mem l hs))⟩
        intro y hy
        rw [joinNl_head ms (h m (by simp)).1] at hy
        intro _
        exact (h m (by simp)).2.2 y hy
      · intro x hx y hy
        simp only [List.head?_cons, Option.mem_def, Option.some.injEq] at hy
        subst hy
        intro hx'
        exact absurd (hx' ▸ List.mem_of_mem_getLast? hx)
          (h l (List.mem_cons_self l _)).2.1

theorem chain_noSpSp_joinNl {ls : List (List Char)}
    (h : ∀ s ∈ ls, List.Chain' noSpSp s) :
    List.Chain' noSpSp (joinNl ls) := by
  induction ls with
  | nil => simp [joinNl]
  | cons l ls ih =>
    cases ls with
    | nil => exact h l (List.mem_cons_self l [])
    | cons m ms =>
      rw [joinNl_cons_cons, List.chain'_append]
      refine ⟨h l (List.mem_cons_self l _), ?_, ?_⟩
      · rw [List.chain'_cons']
        refine ⟨?_, ih (fun s hs => h s (List.mem_cons_of_mem l hs))⟩
        intro y _ hy
        exact absurd hy.1 (by decide)
      · intro x hx y hy
        simp only [List.head?_cons, Option.mem_def, Option.some.injEq] at hy
        subst hy
        intro hxy
        exact absurd hxy.2 (by decide)

/-! ### Every `clean_text` output line is good -/

theorem keepLine_nil : keepLine [] = false := by decide

theorem cleanLines_good (t : List Char) : ∀ s ∈ cleanLines t, goodLine s := by
  intro s hs
  unfold cleanLines at hs
  rcases List.mem_filter.mp hs with ⟨hmap, hkeep⟩
  rcases List.mem_map.mp hmap with ⟨o, ho, rfl⟩
  have hostrip : pyStrip (pyStrip o) = pyStrip o := pyStrip_idem o
  have hne : pyStrip o ≠ [] := by
    intro hnil
    rw [hnil] at hkeep
    rw [keepLine_nil] at hkeep
    exact Bool.false_ne_true hkeep
  have hsubo : pyStrip o <:+: o := pyStrip_sub o
  have hnl : '\n' ∉ pyStrip o := by
    intro hmem
    exact splitNl_mem_no_nl ho (hsubo.subset hmem)
  have hchain : List.Chain' noSpSp (pyStrip o) := by
    have h1 : o <:+: pyStrip (subSp (subNl t)) := splitNl_mem_sub ho
    have h2 : pyStrip (subSp (subNl t)) <:+: subSp (subNl t) := pyStrip_sub _
    have h3 : List.Chain' noSpSp (subSp (subNl t)) := subSp_chain _
    exact List.Chain'.infix h3 ((hsubo.trans h1).trans h2)
  exact ⟨hostrip, hne, hnl, hkeep, hchain⟩

theorem cleanLines_nil : cleanLines [] = [] := by decide

theorem map_id_of_mem {α : Type} {f : α → α} :
    ∀ {ls : List α}, (∀ s ∈ ls, f s = s) → ls.map f = ls := by
  intro ls
  induction ls with
  | nil => intro _; rfl
  | cons a as ih =>
    intro h
    simp only [List.map_cons, h a (List.mem_cons_self a as),
      ih (fun s hs => h s (List.mem_cons_of_mem a hs))]

theorem cleanLines_joinNl {ls : List (List Char)}
    (h : ∀ s ∈ ls, goodLine s) : cleanLines (joinNl ls) = ls := by
  cases ls with
  | nil => exact cleanLines_nil
  | cons l0 ls0 =>
    have hgood : ∀ s ∈ l0 :: ls0, goodLine s := h
    have hne : (l0 :: ls0 : List (List Char)) ≠ [] := by simp
    have hsnil : ∀ s ∈ l0 :: ls0, s ≠ [] := fun s hs => (hgood s hs).2.1
    have hsnl : ∀ s ∈ l0 :: ls0, '\n' ∉ s := fun s hs => (hgood s hs).2.2.1
    have hshead : ∀ s ∈ l0 :: ls0, ∀ c, s.head? = some c → isPySpace c = false := by
      intro s hs c hc
      have := (hgood s hs).1
      exact pyStrip_head_not_ws (this ▸ hc)
    have hslast : ∀ s ∈ l0 :: ls0, ∀ c, s.getLast? = some c → isPySpace c = false := by
      intro s hs c hc
      have := (hgood s hs).1
      exact pyStrip_last_not_ws (this ▸ hc)
    set t' := joinNl (l0 :: ls0) with ht'
    have h1 : subNl t' = t' :=
      subNl_eq_self (chain_nlOk_joinNl (fun s hs =>
        ⟨hsnil s hs, hsnl s hs, hshead s hs⟩))
    have h2 : subSp t' = t' :=
      subSp_eq_self (chain_noSpSp_joinNl (fun s hs => (hgood s hs).2.2.2.2))
    have h3 : pyStrip t' = t' := by
      apply pyStrip_eq_self
      · intro c hc
        rw [ht', joinNl_head ls0 (hsnil l0 (by simp))] at hc
        exact hshead l0 (by simp) c hc
      · intro c hc
        exact joinNl_last_not_ws
          (fun s hs => ⟨hsnil s hs, hslast s hs⟩) c hc
    have h4 : splitNl t' = l0 :: ls0 := splitNl_joinNl hne hsnl
    have h5 : (l0 :: ls0).map pyStrip = l0 :: ls0 :=
      map_id_of_mem (fun s hs => (hgood s hs).1)
    have h6 : (l0 :: ls0).filter keepLine = l0 :: ls0 :=
      List.filter_eq_self.mpr (fun s hs => (hgood s hs).2.2.2.1)
    unfold cleanLines
    rw [h1, h2, h3, h4, h5, h6]

/-- `clean_text` is idempotent: a second normalization pass leaves its
own output unchanged. -/
theorem clean_text_idem (t : List Char) :
    clean_text (clean_text t) = clean_text t := by
  show joinNl (cleanLines (joinNl (cleanLines t))) = clean_text t
  rw [cleanLines_joinNl (cleanLines_good t)]
  rfl

/-! ### Segmentation lemmas -/

theorem survivors_nil : survivors [] = [] := rfl

theorem survivors_cons (l : List Char) (ls : List (List Char)) :
    survivors (l :: ls) =
      if (pyStrip l).isEmpty then survivors ls
      else pyStrip l :: survivors ls := by
  simp only [survivors, List.map_cons, List.filter_cons]
  by_cases h : (pyStrip l).isEmpty
  · rw [if_pos h]
    simp [h]
  · rw [if_neg h]
    simp only [Bool.not_eq_true] at h
    simp [h]

theorem segBuffers_nil (isB : List Char → Bool) (curr : List (List Char)) :
    segBuffers isB curr [] = if curr.isEmpty then [] else [curr] := rfl

theorem segBuffers_cons (isB : List Char → Bool) (curr : List (List Char))
    (l : List Char) (ls : List (List Char)) :
    segBuffers isB curr (l :: ls) =
      if (pyStrip l).isEmpty then segBuffers isB curr ls
      else if isB (pyStrip l) && !curr.isEmpty then
        curr :: segBuffers isB [pyStrip l] ls
      else segBuffers isB (curr ++ [pyStrip l]) ls := rfl

theorem segLoop_nil (isB : List Char → Bool) (curr : List (List Char)) (n : Nat) :
    segLoop isB curr n [] = if curr.isEmpty then [] else [create_scene curr n] := rfl

theorem segLoop_cons (isB : List Char → Bool) (curr : List (List Char))
    (n : Nat) (l : List Char) (ls : List (List Char)) :
    segLoop isB curr n (l :: ls) =
      if (pyStrip l).isEmpty then segLoop isB curr n ls
      else if isB (pyStrip l) && !curr.isEmpty then
        create_scene curr n :: segLoop isB [pyStrip l] (n + 1) ls
      else segLoop isB (curr ++ [pyStrip l]) n ls := rfl

theorem segLoop_map_raw (isB : List Char → Bool) :
    ∀ (ls : List (List Char)) (curr : List (List Char)) (n : Nat),
      (segLoop isB curr n ls).map Scene.raw_text =
        (segBuffers isB curr ls).map joinNl := by
  intro ls
  induction ls with
  | nil =>
    intro curr n
    rw [segLoop_nil, segBuffers_nil]
    by_cases h : curr.isEmpty
    · rw [if_pos h, if_pos h]; rfl
    · rw [if_neg h, if_neg h]; rfl
  | cons l ls ih =>
    intro curr n
    rw [segLoop_cons, segBuffers_cons]
    by_cases h1 : (pyStrip l).isEmpty
    · rw [if_pos h1, if_pos h1]; exact ih curr n
    · rw [if_neg h1, if_neg h1]
      by_cases h2 : isB (pyStrip l) && !curr.isEmpty
      · rw [if_pos h2, if_pos h2]
        simp only [List.map_cons, ih [pyStrip l] (n + 1)]
        rfl
      · rw [if_neg h2, if_neg h2]; exact ih _ n

theorem segLoop_map_number (isB : List Char → Bool) :
    ∀ (ls : List (List Char)) (curr : List (List Char)) (n : Nat),
      (segLoop isB curr n ls).map Scene.number =
        List.range' n (segLoop isB curr n ls).length := by
  intro ls
  induction ls with
  | nil =>
    intro curr n
    rw [segLoop_nil]
    by_cases h : curr.isEmpty
    · rw [if_pos h]; rfl
    · rw [if_neg h]; rfl
  | cons l ls ih =>
    intro curr n
    rw [segLoop_cons]
    by_cases h1 : (pyStrip l).isEmpty
    · rw [if_pos h1]; exact ih curr n
    · rw [if_neg h1]
      by_cases h2 : isB (pyStrip l) && !curr.isEmpty
      · rw [if_pos h2]
        simp only [List.map_cons, List.length_cons, List.range'_succ]
        rw [ih [pyStrip l] (n + 1)]
        rfl
      · rw [if_neg h2]; exact ih _ n

theorem segBuffers_flatten (isB : List Char → Bool) :
    ∀ (ls : List (List Char)) (curr : List (List Char)),
      (segBuffers isB curr ls).flatten = curr ++ survivors ls := by
  intro ls
  induction ls with
  | nil =>
    intro curr
    rw [segBuffers_nil, survivors_nil]
    by_cases h : curr.isEmpty
    · rw [if_pos h]
      simp only [List.isEmpty_iff] at h
      simp [h]
    · rw [if_neg h]; simp
  | cons l ls ih =>
    intro curr
    rw [segBuffers_cons, survivors_cons]
    by_cases h1 : (pyStrip l).isEmpty
    · rw [if_pos h1, if_pos h1]; exact ih curr
    · rw [if_neg h1, if_neg h1]
      by_cases h2 : isB (pyStrip l) && !curr.isEmpty
      · rw [if_pos h2]
        simp only [List.flatten_cons, ih [pyStrip l]]
        simp
      · rw [if_neg h2]
        rw [ih (curr ++ [pyStrip l])]
        simp

theorem segBuffers_mem_ne_nil (isB : List Char → Bool) :
    ∀ (ls : List (List Char)) (curr : List (List Char)),
      ∀ b ∈ segBuffers isB curr ls, b ≠ [] := by
  intro ls
  induction ls with
  | nil =>
    intro curr b hb
    rw [segBuffers_nil] at hb
    by_cases h : curr.isEmpty
    · rw [if_pos h] at hb; simp at hb
    · rw [if_neg h] at hb
      simp only [List.mem_singleton] at hb
      subst hb
      simpa [List.isEmpty_iff] using h
  | cons l ls ih =>
    intro curr b hb
    rw [segBuffers_cons] at hb
    by_cases h1 : (pyStrip l).isEmpty
    · rw [if_pos h1] at hb; exact ih curr b hb
    · rw [if_neg h1] at hb
      by_cases h2 : isB (pyStrip l) && !curr.isEmpty
      · rw [if_pos h2] at hb
        rcases List.mem_cons.mp hb with hb' | hb'
        · subst hb'
          have := (Bool.and_eq_true_iff.mp h2).2
          simpa [List.isEmpty_iff] using this
        · exact ih [pyStrip l] b hb'
      · rw [if_neg h2] at hb
        exact ih (curr ++ [pyStrip l]) b hb

theorem flatten_ne_nil {bs : List (List (List Char))} (hne : bs ≠ [])
    (h : ∀ b ∈ bs, b ≠ []) : bs.flatten ≠ [] := by
  cases bs with
  | nil => exact absurd rfl hne
  | cons b bs =>
    simp only [List.flatten_cons]
    intro hnil
    rcases List.append_eq_nil.mp hnil with ⟨h1, _⟩
    exact h b (List.mem_cons_self b bs) h1

theorem joinNl_append {xs ys : List (List Char)} (hx : xs ≠ []) (hy : ys ≠ []) :
    joinNl (xs ++ ys) = joinNl xs ++ '\n' :: joinNl ys := by
  induction xs with
  | nil => exact absurd rfl hx
  | cons x xs ih =>
    cases xs with
    | nil =>
      cases ys with
      | nil => exact absurd rfl hy
      | cons y ys => rw [List.singleton_append, joinNl_cons_cons]; rfl
    | cons x2 xs2 =>
      show joinNl (x :: x2 :: (xs2 ++ ys)) =
        joinNl (x :: x2 :: xs2) ++ '\n' :: joinNl ys
      rw [joinNl_cons_cons x x2 (xs2 ++ ys), joinNl_cons_cons x x2 xs2]
      have h2 : joinNl ((x2 :: xs2) ++ ys) =
          joinNl (x2 :: xs2) ++ '\n' :: joinNl ys := ih (by simp)
      have h3 : ((x2 :: xs2 : List (List Char)) ++ ys) = x2 :: (xs2 ++ ys) := rfl
      rw [h3] at h2
      rw [h2]
      simp

theorem joinNl_map_flatten :
    ∀ {bs : List (List (List Char))}, (∀ b ∈ bs, b ≠ []) →
      joinNl (bs.map joinNl) = joinNl bs.flatten := by
  intro bs
  induction bs with
  | nil => intro _; rfl
  | cons b bs ih =>
    intro h
    cases bs with
    | nil => simp [joinNl, List.flatten]
    | cons b2 bs2 =>
      have hb : b ≠ [] := h b (List.mem_cons_self b _)
      have hrest : ∀ x ∈ b2 :: bs2, x ≠ [] :=
        fun x hx => h x (List.mem_cons_of_mem b hx)
      have hflat_ne : (b2 :: bs2 : List (List (List Char))).flatten ≠ [] :=
        flatten_ne_nil (by simp) hrest
      rw [List.map_cons, List.flatten_cons]
      have hmap2 : (b2 :: bs2 : List (List (List Char))).map joinNl =
          joinNl b2 :: bs2.map joinNl := rfl
      rw [hmap2, joinNl_cons_cons, ← hmap2, ih hrest,
        joinNl_append hb hflat_ne]

theorem survivors_splitNl_clean (t : List Char) :
    survivors (splitNl (clean_text t)) = cleanLines t := by
  rcases hls : cleanLines t with _ | ⟨l0, ls0⟩
  · have : clean_text t = [] := by
      show joinNl (cleanLines t) = []
      rw [hls]
      rfl
    rw [this]
    decide
  · have hgood : ∀ s ∈ l0 :: ls0, goodLine s := by
      rw [← hls]; exact cleanLines_good t
    have hct : clean_text t = joinNl (l0 :: ls0) := by
      show joinNl (cleanLines t) = _
      rw [hls]
    rw [hct, splitNl_joinNl (by simp) (fun s hs => (hgood s hs).2.2.1)]
    unfold survivors
    rw [map_id_of_mem (fun s hs => (hgood s hs).1)]
    rw [List.filter_eq_self.mpr]
    intro s hs
    simp only [Bool.not_eq_eq_eq_not, Bool.not_true, List.isEmpty_eq_false]
    exact (hgood s hs).2.1

theorem segBuffers_no_boundary (isB : List Char → Bool) :
    ∀ (ls : List (List Char)), (∀ l ∈ ls, isB (pyStrip l) = false) →
      ∀ curr, segBuffers isB curr ls =
        if (curr ++ survivors ls).isEmpty then []
        else [curr ++ survivors ls] := by
  intro ls
  induction ls with
  | nil =>
    intro _ curr
    rw [segBuffers_nil, survivors_nil, List.append_nil]
  | cons l ls ih =>
    intro h curr
    rw [segBuffers_cons, survivors_cons]
    by_cases h1 : (pyStrip l).isEmpty
    · rw [if_pos h1, if_pos h1]
      exact ih (fun x hx => h x (List.mem_cons_of_mem l hx)) curr
    · rw [if_neg h1, if_neg h1]
      have hb : isB (pyStrip l) = false := h l (List.mem_cons_self l ls)
      rw [if_neg (by simp [hb])]
      rw [ih (fun x hx => h x (List.mem_cons_of_mem l hx)) (curr ++ [pyStrip l])]
      have : curr ++ [pyStrip l] ++ survivors ls =
          curr ++ pyStrip l :: survivors ls := by simp
      rw [this]

theorem segLoop_title_mem (isB : List Char → Bool) :
    ∀ (ls : List (List Char)) (curr : List (List Char)) (n : Nat),
      ∀ s ∈ segLoop isB curr n ls,
        s.title ∈ curr ∨ s.title ∈ survivors ls := by
  intro ls
  induction ls with
  | nil =>
    intro curr n s hs
    rw [segLoop_nil] at hs
    by_cases h : curr.isEmpty
    · rw [if_pos h] at hs; simp at hs
    · rw [if_neg h] at hs
      simp only [List.mem_singleton] at hs
      subst hs
      left
      rcases curr with _ | ⟨c0, cs⟩
      · simp at h
      · exact List.mem_cons_self c0 cs
  | cons l ls ih =>
    intro curr n s hs
    rw [segLoop_cons] at hs
    rw [survivors_cons]
    by_cases h1 : (pyStrip l).isEmpty
    · rw [if_pos h1] at hs
      rw [if_pos h1]
      exact ih curr n s hs
    · rw [if_neg h1] at hs
      rw [if_neg h1]
      by_cases h2 : isB (pyStrip l) && !curr.isEmpty
      · rw [if_pos h2] at hs
        rcases List.mem_cons.mp hs with hs' | hs'
        · subst hs'
          left
          have hcne := (Bool.and_eq_true_iff.mp h2).2
          rcases curr with _ | ⟨c0, cs⟩
          · simp at hcne
          · exact List.mem_cons_self c0 cs
        · rcases ih [pyStrip l] (n + 1) s hs' with hin | hin
          · right
            simp only [List.mem_singleton] at hin
            rw [hin]
            exact List.mem_cons_self _ _
          · right
            exact List.mem_cons_of_mem _ hin
      · rw [if_neg h2] at hs
        rcases ih (curr ++ [pyStrip l]) n s hs with hin | hin
        · rcases List.mem_append.mp hin with hin' | hin'
          · left; exact hin'
          · right
            simp only [List.mem_singleton] at hin'
            rw [hin']
            exact List.mem_cons_self _ _
        · right
          exact List.mem_cons_of_mem _ hin

/-- Claim C6: `normalize` is idempotent, stated on the input string. -/
theorem claim_C6_normalize_idempotent (text : List Char) :
    clean_text (clean_text text) = clean_text text :=
  clean_text_idem text

/-- Claim C3: for every input text and every pattern configuration, the
newline-join of the `raw_text` fields of the scenes obtained by
segmenting the normalized text is exactly the normalized text, i.e. the
sequence of non-empty lines that normalization produced, in order, with
no line dropped or duplicated. -/
theorem claim_C3_raw_text_partition (pats : List (List Char → Bool))
    (text : List Char) :
    joinNl ((segment_into_scenes pats (clean_text text)).map Scene.raw_text) =
      clean_text text := by
  unfold segment_into_scenes
  rw [segLoop_map_raw]
  rw [joinNl_map_flatten (segBuffers_mem_ne_nil (isBoundary pats) _ [])]
  rw [segBuffers_flatten]
  rw [List.nil_append]
  rw [survivors_splitNl_clean]
  rfl

/-- Claim C7: for every input text (normalized or not) and every
pattern configuration, the scene numbers are exactly `1, 2, ..., N` in
list order: 1-based, contiguous, strictly increasing, unique. -/
theorem claim_C7_scene_numbers (pats : List (List Char → Bool))
    (t : List Char) :
    (segment_into_scenes pats t).map Scene.number =
      List.range' 1 (segment_into_scenes pats t).length :=
  segLoop_map_number (isBoundary pats) (splitNl t) [] 1

/-! ### Substring machinery for the classifier -/

theorem pyStarts_iff :
    ∀ {p l : List Char}, pyStarts p l = true ↔ p <+: l := by
  intro p
  induction p with
  | nil => intro l; simp [pyStarts]
  | cons a as ih =>
    intro l
    cases l with
    | nil => simp [pyStarts]
    | cons c cs =>
      rw [pyStarts]
      rw [Bool.and_eq_true_iff]
      rw [List.cons_prefix_cons]
      constructor
      · rintro ⟨h1, h2⟩
        exact ⟨by simpa using h1, ih.mp h2⟩
      · rintro ⟨h1, h2⟩
        exact ⟨by simpa using h1, ih.mpr h2⟩

theorem hasSub_iff :
    ∀ {l sub : List Char}, hasSub l sub = true ↔ sub <:+: l := by
  intro l
  induction l with
  | nil =>
    intro sub
    rw [hasSub]
    simp only [Bool.or_false]
    rw [pyStarts_iff, List.prefix_nil, List.infix_nil]
  | cons c cs ih =>
    intro sub
    rw [hasSub]
    simp only [Bool.or_eq_true]
    rw [pyStarts_iff, ih, List.infix_cons_iff]

/-! ### Claim theorems -/

/-- Claim C1, counterexample: the buffer whose title line is
`INT/EXT. STREET - DAY` contains the combined marker, yet the
classifier returns the exterior label (`экстерьер`), not the interior
label (`интерьер`) that the claim predicts: `INT/EXT.` contains `EXT.`
as a substring but not `INT.`. -/
theorem claim_C1_counterexample :
    determine_scene_type ["INT/EXT. STREET - DAY".data] = "экстерьер".data ∧
      determine_scene_type ["INT/EXT. STREET - DAY".data] ≠ "интерьер".data := by
  constructor
  · decide
  · decide

/-- Claim C1, amended: for every scene buffer whose upper-cased title
contains the combined marker `INT/EXT.`, the classifier never returns
the combined label: it returns the interior label exactly when the
title also contains `INT.` as a substring, and the exterior label
otherwise (because `INT/EXT.` contains `EXT.` but not `INT.`, and both
plain-marker membership tests run before the combined one). -/
theorem claim_C1_amended (title : List Char) (rest : List (List Char))
    (h : hasSub (pyUpper title) "INT/EXT.".data = true) :
    determine_scene_type (title :: rest) =
      if hasSub (pyUpper title) "INT.".data = true then "интерьер".data
      else "экстерьер".data := by
  have hext : hasSub (pyUpper title) "EXT.".data = true := by
    rw [hasSub_iff]
    have h1 : ("EXT.".data : List Char) <:+: "INT/EXT.".data := by
      rw [← hasSub_iff]
      decide
    exact h1.trans (hasSub_iff.mp h)
  by_cases hint : hasSub (pyUpper title) "INT.".data = true
  · rw [if_pos hint]
    unfold determine_scene_type
    rw [if_pos hint]
  · rw [if_neg hint]
    unfold determine_scene_type
    rw [if_neg hint, if_pos hext]

/-- Witness for the amended claim C1 at the concrete title
`INT/EXT. STREET - DAY`. -/
theorem claim_C1_witness :
    hasSub (pyUpper "INT/EXT. STREET - DAY".data) "INT/EXT.".data = true ∧
      determine_scene_type ["INT/EXT. STREET - DAY".data] =
        (if hasSub (pyUpper "INT/EXT. STREET - DAY".data) "INT.".data = true
         then "интерьер".data else "экстерьер".data) :=
  ⟨by decide, claim_C1_amended "INT/EXT. STREET - DAY".data [] (by decide)⟩

/-- Claim C2, counterexample: constructing the loader with an empty
custom pattern list does not disable boundary detection — Python's
`scene_patterns or [defaults]` treats the empty list as falsy, so the
default patterns are installed and a default-matching line is still
judged a boundary. -/
theorem claim_C2_counterexample :
    isBoundary (initPatterns (some [])) "INT. KITCHEN - DAY".data = true ∧
      initPatterns (some []) = defaultPatterns :=
  ⟨by decide, rfl⟩

/-- Claim C2, amended: a non-empty custom pattern list is used exactly
as supplied, but an empty list (like `None`) falls back to the default
patterns, so with an empty custom set default-matching lines are still
scene boundaries. -/
theorem claim_C2_amended :
    (∀ ps : List (List Char → Bool), ps ≠ [] → initPatterns (some ps) = ps) ∧
      initPatterns (some []) = defaultPatterns ∧
      initPatterns none = defaultPatterns := by
  refine ⟨?_, rfl, rfl⟩
  intro ps hps
  show (if ps.isEmpty = true then defaultPatterns else ps) = ps
  rw [if_neg]
  simp [List.isEmpty_iff, hps]

/-- Witness for the amended claim C2 at a concrete non-empty custom
pattern list. -/
theorem claim_C2_witness :
    ([fun _ => true] : List (List Char → Bool)) ≠ [] ∧
      initPatterns (some [fun _ => true]) = [fun _ => true] :=
  ⟨by simp, claim_C2_amended.1 [fun _ => true] (by simp)⟩

/-- Claim C4: building a scene from the buffer `["INT. KITCHEN - DAY"]`
yields location `KITCHEN` and the interior label, and from
`["EXT. STREET - NIGHT"]` yields location `STREET` and the exterior
label (the source spells the labels in Russian: `интерьер` = interior,
`экстерьер` = exterior). -/
theorem claim_C4_classification :
    (create_scene ["INT. KITCHEN - DAY".data] 1).location = "KITCHEN".data ∧
      (create_scene ["INT. KITCHEN - DAY".data] 1).metadata_scene_type =
        "интерьер".data ∧
      (create_scene ["EXT. STREET - NIGHT".data] 2).location = "STREET".data ∧
      (create_scene ["EXT. STREET - NIGHT".data] 2).metadata_scene_type =
        "экстерьер".data := by
  refine ⟨?_, ?_, ?_, ?_⟩ <;> decide

/-- Claim C5, counterexample: invoking the scene builder with an empty
buffer is NOT surfaced as an error — it is handled like any other call
and returns an ordinary scene record with empty title, empty text and
`line_count = 0`. -/
theorem claim_C5_counterexample :
    create_scene [] 1 =
      ⟨1, [], [], [], [], 0, 0, false, "неопределен".data⟩ := by
  decide

/-- Claim C5, amended: for every non-empty buffer the builder succeeds
with `line_count ≥ 1`; an empty buffer is likewise handled as an
ordinary outcome, producing a scene with `line_count = 0` (no distinct
invariant failure is raised). -/
theorem claim_C5_amended :
    (∀ (lines : List (List Char)) (n : Nat), lines ≠ [] →
        1 ≤ (create_scene lines n).metadata_line_count) ∧
      (create_scene [] 1).metadata_line_count = 0 := by
  constructor
  · intro lines n hne
    show 1 ≤ lines.length
    exact List.length_pos.mpr hne
  · rfl

/-- Witness for the amended claim C5 at a concrete non-empty buffer. -/
theorem claim_C5_witness :
    (["abc".data] : List (List Char)) ≠ [] ∧
      1 ≤ (create_scene ["abc".data] 5).metadata_line_count :=
  ⟨by simp, claim_C5_amended.1 ["abc".data] 5 (by simp)⟩

theorem clean_text_chain_nlOk (t : List Char) :
    List.Chain' nlOk (clean_text t) := by
  show List.Chain' nlOk (joinNl (cleanLines t))
  rcases hls : cleanLines t with _ | ⟨l0, ls0⟩
  · simp [joinNl]
  · have hgood : ∀ s ∈ l0 :: ls0, goodLine s := by
      rw [← hls]; exact cleanLines_good t
    apply chain_nlOk_joinNl
    intro s hs
    refine ⟨(hgood s hs).2.1, (hgood s hs).2.2.1, ?_⟩
    intro c hc
    exact pyStrip_head_not_ws ((hgood s hs).1 ▸ hc)

/-- Claim C8, counterexample: on the input `"ab\n\n\ncd"` the claim
predicts that normalization preserves a double newline, but the final
output is `"ab\ncd"` — the blank line left by the first substitution is
dropped by the line filter and the surviving lines are rejoined with
single newlines. -/
theorem claim_C8_counterexample :
    clean_text "ab\n\n\ncd".data = "ab\ncd".data ∧
      clean_text "ab\n\n\ncd".data ≠ "ab\n\ncd".data := by
  constructor
  · decide
  · decide

/-- Claim C8, amended: the first substitution of `clean_text` does
collapse a 3+-newline run to exactly two newlines (shown on
`"ab\n\n\ncd"`), but the subsequent blank-line filtering removes the
empty line and the survivors are rejoined with single newlines, so the
final output of normalization never contains two adjacent newlines. -/
theorem claim_C8_amended :
    subNl "ab\n\n\ncd".data = "ab\n\ncd".data ∧
      ∀ t : List Char,
        List.Chain' (fun a b => ¬(a = '\n' ∧ b = '\n')) (clean_text t) := by
  constructor
  · decide
  · intro t
    apply List.Chain'.imp ?_ (clean_text_chain_nlOk t)
    intro a b hab
    intro hcon
    have := hab hcon.1
    rw [hcon.2] at this
    simp [isPySpace] at this

/-- Claim C9, counterexample: the empty string is a normalized text
(`clean_text` of the empty input) in which no line matches any boundary
pattern, yet segmentation yields zero scenes, not one. -/
theorem claim_C9_counterexample :
    clean_text [] = ([] : List Char) ∧
      (∀ l ∈ splitNl ([] : List Char),
        isBoundary defaultPatterns (pyStrip l) = false) ∧
      segment_into_scenes defaultPatterns [] = [] := by
  refine ⟨by decide, by decide, by decide⟩

/-- Claim C9, amended: for every NON-EMPTY normalized text in which no
line matches any boundary pattern, segmentation yields exactly one
scene whose `raw_text` is the full normalized text. -/
theorem claim_C9_amended (pats : List (List Char → Bool)) (raw : List Char)
    (hne : clean_text raw ≠ [])
    (hnob : ∀ l ∈ splitNl (clean_text raw),
      isBoundary pats (pyStrip l) = false) :
    (segment_into_scenes pats (clean_text raw)).map Scene.raw_text =
      [clean_text raw] := by
  unfold segment_into_scenes
  rw [segLoop_map_raw]
  rw [segBuffers_no_boundary (isBoundary pats) _ hnob []]
  rw [List.nil_append, survivors_splitNl_clean]
  have hclne : cleanLines raw ≠ [] := by
    intro h
    apply hne
    show joinNl (cleanLines raw) = []
    rw [h]
    rfl
  rw [if_neg (by simp [List.isEmpty_iff, hclne])]
  show [joinNl (cleanLines raw)] = [clean_text raw]
  rfl

/-- Witness for the amended claim C9 at the concrete input
`"hello world\nfoo bar"`, whose lines match no default pattern. -/
theorem claim_C9_witness :
    clean_text "hello world\nfoo bar".data ≠ [] ∧
      (∀ l ∈ splitNl (clean_text "hello world\nfoo bar".data),
        isBoundary defaultPatterns (pyStrip l) = false) ∧
      (segment_into_scenes defaultPatterns
          (clean_text "hello world\nfoo bar".data)).map Scene.raw_text =
        [clean_text "hello world\nfoo bar".data] :=
  ⟨by decide, by decide,
    claim_C9_amended defaultPatterns "hello world\nfoo bar".data
      (by decide) (by decide)⟩

/-- Claim C10: a numbered-heading line of fewer than 3 characters — a
digit followed by a period — matches the numbered-heading boundary
pattern, but the normalizer drops it (shorter than 3 characters, no
Latin or Cyrillic letter), so in the full pipeline it never opens a
scene: it is never the title of any produced scene. -/
theorem claim_C10_short_numbered_heading (raw : List Char) (d : Char)
    (hd : d ∈ "0123456789".data) :
    pat2 [d, '.'] = true ∧ keepLine [d, '.'] = false ∧
      ∀ s ∈ segment_into_scenes defaultPatterns (clean_text raw),
        s.title ≠ [d, '.'] := by
  refine ⟨?_, ?_, ?_⟩
  · fin_cases hd <;> decide
  · fin_cases hd <;> decide
  · intro s hs hteq
    have hmem := segLoop_title_mem (isBoundary defaultPatterns)
      (splitNl (clean_text raw)) [] 1 s hs
    rcases hmem with hmem | hmem
    · simp at hmem
    · rw [survivors_splitNl_clean] at hmem
      have hk := (cleanLines_good raw s.title hmem).2.2.2.1
      rw [hteq] at hk
      have hkf : keepLine [d, '.'] = false := by fin_cases hd <;> decide
      rw [hkf] at hk
      exact Bool.false_ne_true hk

/-- Witness for claim C10 at digit `'1'` and the concrete input
`"1.\nJOHN walks"`. -/
theorem claim_C10_witness :
    pat2 ['1', '.'] = true ∧ keepLine ['1', '.'] = false ∧
      ∀ s ∈ segment_into_scenes defaultPatterns
          (clean_text "1.\nJOHN walks".data),
        s.title ≠ ['1', '.'] :=
  claim_C10_short_numbered_heading "1.\nJOHN walks".data '1' (by decide)

example : clean_text "ab\n\n\ncd".data = "ab\ncd".data := by decide

example : clean_text "  INT. KITCHEN - DAY \nJohn   sits.\n\n\n12\nx\n".data =
    "INT. KITCHEN - DAY\nJohn sits.\nx".data := by decide
